import Mathlib

/-!  Verification of the MCTS core in langchain_mcts/core.py.

The Python tree of mutable MCTSNode objects linked by parent references
is embedded as an inductive tree.  A node is addressed by the list of
child indices leading from the root down to it, so walking the parent
chain from a node up to the root corresponds to updating every node on
that index path (see backpropagate below).  Machine floats are
idealised as exact rationals (visit statistics, rewards) and as reals
inside the UCB1 weight, where the Python float("inf") of a zero-visit
child becomes the top element of EReal.  The language-model collaborator
(llm.invoke wrapped by get_critique / improve_answer / rate_answer) is
an opaque triple of total string functions, and a Python exception is an
Except.error carrying its message.  The random.choice calls are driven
by an injectable stream of naturals, reduced modulo the length of the
list being chosen from.  -/

/-- MAX_CHILDREN = 3 from core.py. -/
def MAX_CHILDREN : ℕ := 3

/-- DEFAULT_SEED_ANSWERS from core.py. -/
def DEFAULT_SEED_ANSWERS : List String :=
  ["I don\x27t know the answer", "I\x27m not sure", "I can\x27t say"]

/-- MCTSNode.__init__: a node carries question, answer, children
(initially empty), visits (initially 0) and value (initially 0.0).
The parent back-reference of the Python object is represented by the
index path of the node below the root. -/
inductive MCTSNode : Type where
  | mk : String → String → List MCTSNode → ℕ → ℚ → MCTSNode

def MCTSNode.question : MCTSNode → String
  | .mk q _ _ _ _ => q

def MCTSNode.answer : MCTSNode → String
  | .mk _ a _ _ _ => a

def MCTSNode.children : MCTSNode → List MCTSNode
  | .mk _ _ cs _ _ => cs

def MCTSNode.visits : MCTSNode → ℕ
  | .mk _ _ _ v _ => v

def MCTSNode.value : MCTSNode → ℚ
  | .mk _ _ _ _ w => w

theorem sizeOf_lt_of_mem_children (n c : MCTSNode) (h : c ∈ n.children) :
    sizeOf c < sizeOf n := by
  cases n with
  | mk q a cs v w =>
    simp only [MCTSNode.children] at h
    have h2 := List.sizeOf_lt_of_mem h
    simp only [MCTSNode.mk.sizeOf_spec]
    omega

/-- MCTSNode.is_fully_expanded: len(children) >= MAX_CHILDREN. -/
def MCTSNode.is_fully_expanded (n : MCTSNode) : Bool :=
  MAX_CHILDREN ≤ n.children.length

/-!  Best-effort numeric extraction performed by MCTS.rate_answer via
re.search applied to the pattern Rating: followed by optional
whitespace and one or more digits.  The scan below tries to match the
whole pattern at every start position from the left, exactly as the
leftmost-match rule of re.search does; whitespace is the ASCII set
matched by the escape class of the pattern. -/

def isSpaceChar (c : Char) : Bool :=
  c.toNat = 32 || c.toNat = 9 || c.toNat = 10 || c.toNat = 13 || c.toNat = 11 || c.toNat = 12

/-- int() applied to the run of matched digit characters. -/
def digitsToNat (ds : List Char) : ℕ :=
  ds.foldl (fun acc c => acc * 10 + (c.toNat - 48)) 0

/-- Match a literal character sequence at the head of the input,
returning the remainder on success. -/
def dropLit : List Char → List Char → Option (List Char)
  | [], s => some s
  | _ :: _, [] => none
  | c :: cs, d :: ds => if d = c then dropLit cs ds else none

/-- Match the full regex pattern anchored at the head of the input:
the literal label Rating: then greedy whitespace, then at least one
digit (the captured group, taken greedily). -/
def matchRatingAt (s : List Char) : Option ℕ :=
  match dropLit "Rating:".data s with
  | none => none
  | some rest =>
    let ds := (rest.dropWhile isSpaceChar).takeWhile Char.isDigit
    if ds.isEmpty then none else some (digitsToNat ds)

/-- re.search: leftmost occurrence of the whole pattern. -/
def findRating : List Char → Option ℕ
  | [] => none
  | c :: cs =>
    match matchRatingAt (c :: cs) with
    | some r => some r
    | none => findRating cs

/-- The parsing part of MCTS.rate_answer, applied to the text of the
oracle response: first integer after a Rating: label, capped at 95,
divided by 100; the ValueError raised when no match is found is caught
by the surrounding try block and degraded to 0.0. -/
def rate_of_response (s : String) : ℚ :=
  match findRating s.data with
  | some r0 =>
    let r : ℕ := if 95 < r0 then 95 else r0
    (r : ℚ) / 100
  | none => 0

/-- MCTS.rate_answer: the llm.invoke call stands outside the try block
of the source, so a failing oracle call propagates as an exception;
only the response obtained from a successful call is parsed, and the
parse itself never fails (rate_of_response is total). -/
def rate_answer (oracle_response : Except String String) : Except String ℚ :=
  match oracle_response with
  | Except.error e => Except.error e
  | Except.ok text => Except.ok (rate_of_response text)

/-- np.argmax: index of the first occurrence of the maximum; 0 on the
empty list (where numpy would raise). -/
def npArgmax {α : Type} [LinearOrder α] : List α → ℕ
  | [] => 0
  | a :: l => if l.maximum ≤ (a : WithBot α) then 0 else npArgmax l + 1

/-- The UCB1 weight computed inside MCTSNode.best_child for one child:
float("inf") for an unvisited child, otherwise
value / visits + exploration_weight * sqrt(2 * ln(parent visits) / visits). -/
noncomputable def MCTSNode.ucb_weight (parentVisits : ℕ) (exploration_weight : ℝ)
    (c : MCTSNode) : EReal :=
  if c.visits = 0 then (⊤ : EReal)
  else (((c.value : ℝ) / (c.visits : ℝ)
      + exploration_weight * Real.sqrt (2 * Real.log (parentVisits : ℝ) / (c.visits : ℝ)) : ℝ) : EReal)

/-- The index chosen by np.argmax over the children weights. -/
noncomputable def MCTSNode.best_child_idx (n : MCTSNode) (exploration_weight : ℝ) : ℕ :=
  npArgmax (n.children.map (MCTSNode.ucb_weight n.visits exploration_weight))

/-- MCTSNode.best_child: children[np.argmax(choices_weights)]; none
models the numpy error on an empty children list. -/
noncomputable def MCTSNode.best_child (n : MCTSNode) (exploration_weight : ℝ) :
    Option MCTSNode :=
  n.children.get? (n.best_child_idx exploration_weight)

/-- MCTSNode.most_visited_child: max(children, key=visits); the Python
max keeps the first element among ties, which is the same first-index
argmax; none models the ValueError on an empty children list. -/
def MCTSNode.most_visited_child (n : MCTSNode) : Option MCTSNode :=
  n.children.get? (npArgmax (n.children.map MCTSNode.visits))

/-- Replace the element at one index of a list, leaving the list
unchanged when the index is out of range. -/
def modifyIdx {α : Type} (f : α → α) : ℕ → List α → List α
  | _, [] => []
  | 0, a :: l => f a :: l
  | i + 1, a :: l => a :: modifyIdx f i l

/-- The node reached from t by following the index path p. -/
def getNode : MCTSNode → List ℕ → Option MCTSNode
  | t, [] => some t
  | t, i :: p =>
    match t.children.get? i with
    | some c => getNode c p
    | none => none

/-- Replace the subtree at index path p. -/
def setNode : MCTSNode → List ℕ → MCTSNode → MCTSNode
  | _, [], m => m
  | .mk q a cs v w, i :: p, m => .mk q a (modifyIdx (fun c => setNode c p m) i cs) v w

/-- MCTS.backpropagate: the Python loop walks from the node at path p
up the parent chain to the root, incrementing visits and adding the
reward to value at every node it passes; top-down this updates the
statistics of every node along the path p. -/
def backpropagate (reward : ℚ) : MCTSNode → List ℕ → MCTSNode
  | .mk q a cs v w, [] => .mk q a cs (v + 1) (w + reward)
  | .mk q a cs v w, i :: p =>
    .mk q a (modifyIdx (fun c => backpropagate reward c p) i cs) (v + 1) (w + reward)

/-- Boolean test that the first path is a prefix of the second, that
is, that the node addressed by the first path lies on the parent chain
of the node addressed by the second. -/
def isPathPre : List ℕ → List ℕ → Bool
  | [], _ => true
  | _ :: _, [] => false
  | i :: q, j :: p => i == j && isPathPre q p

/-- The language-model oracle, restricted to the three prompt shapes
issued by the engine (critique, improve, rate), as total functions of
the strings interpolated into the prompts. -/
structure Oracle where
  get_critique : String → String → String
  improve_answer : String → String → String → String
  rate_response : String → String → String

/-- One loop body of MCTS.expand: the child starts from the draft
answer of the expanded node, and its answer is replaced by the improved
answer obtained from the critique of that draft; fresh nodes carry no
children, zero visits and value 0.0. -/
def mkChild (o : Oracle) (question draft : String) : MCTSNode :=
  MCTSNode.mk question (o.improve_answer question draft (o.get_critique question draft)) [] 0 0

/-- MCTS.expand: append MAX_CHILDREN - len(children) fresh children
(a Python range over a non-positive count is empty, like truncated
subtraction on ℕ). -/
def expand (o : Oracle) (question : String) (n : MCTSNode) : MCTSNode :=
  MCTSNode.mk n.question n.answer
    (n.children ++ List.replicate (MAX_CHILDREN - n.children.length)
      (mkChild o question n.answer))
    n.visits n.value

/-- MCTS.select: while the current node is fully expanded and has
children, descend into best_child() with the default exploration
weight 1.41; the result is the index path of the node where the walk
stops.  The none arm of the match is unreachable because the argmax
index is always in range for a non-empty children list. -/
noncomputable def select (n : MCTSNode) : List ℕ :=
  if n.is_fully_expanded && !n.children.isEmpty then
    match h : n.children.get? (n.best_child_idx 1.41) with
    | some c => n.best_child_idx 1.41 :: select c
    | none => []
  else []
decreasing_by
  exact sizeOf_lt_of_mem_children n c (by
    obtain ⟨hlt, rfl⟩ := List.get?_eq_some.mp h
    exact List.get_mem _ _ _)

/-- MCTS.simulate: rate the answer of the node; with a total oracle the
reward is the parsed rating of the oracle response. -/
def simulate (o : Oracle) (question : String) (n : MCTSNode) : ℚ :=
  rate_of_response (o.rate_response question n.answer)

/-- The expand branch of one search iteration: expand the selected
node, pick one of its children at random (index k modulo the fan-out),
simulate that child and backpropagate the reward from it. -/
def expand_and_simulate (o : Oracle) (question : String) (k : ℕ)
    (root : MCTSNode) (p : List ℕ) (sel : MCTSNode) : MCTSNode :=
  let expanded := expand o question sel
  let j := k % expanded.children.length
  let c := expanded.children.getD j expanded
  backpropagate (simulate o question c) (setNode root p expanded) (p ++ [j])

/-- The branch of one search iteration taken when the selected node is
already fully expanded: simulate the selected node itself. -/
def simulate_here (o : Oracle) (question : String)
    (root : MCTSNode) (p : List ℕ) (sel : MCTSNode) : MCTSNode :=
  backpropagate (simulate o question sel) root p

/-- One iteration of the loop in MCTS.search: select, conditionally
expand, simulate, backpropagate. -/
noncomputable def searchStep (o : Oracle) (question : String) (k : ℕ)
    (root : MCTSNode) : MCTSNode :=
  let p := select root
  match getNode root p with
  | some sel =>
    if sel.is_fully_expanded then simulate_here o question root p sel
    else expand_and_simulate o question k root p sel
  | none => root

/-- MCTS.__init__ state: question, oracle, seed answers, iteration
budget and the root of the owned tree. -/
structure MCTS where
  question : String
  oracle : Oracle
  seed_answers : List String
  iterations : ℕ
  root : MCTSNode

/-- MCTS.__init__: the root holds a seed answer chosen from the pool by
the injected random index. -/
def MCTS.init (question : String) (oracle : Oracle) (seed_answers : List String)
    (iterations : ℕ) (seed_pick : ℕ) : MCTS :=
  { question := question, oracle := oracle, seed_answers := seed_answers,
    iterations := iterations,
    root := MCTSNode.mk question
      (seed_answers.getD (seed_pick % seed_answers.length) "") [] 0 0 }

/-- The root after k iterations of the search loop; the stream pick
supplies the random child choice of each iteration. -/
noncomputable def MCTS.runRoot (st : MCTS) (pick : ℕ → ℕ) (k : ℕ) : MCTSNode :=
  (List.range k).foldl (fun r i => searchStep st.oracle st.question (pick i) r) st.root

/-- The root after the full iteration budget of MCTS.search. -/
noncomputable def MCTS.finalRoot (st : MCTS) (pick : ℕ → ℕ) : MCTSNode :=
  st.runRoot pick st.iterations

/-- MCTS.search: run the budgeted iterations, then return the answer of
the most visited root child; the error value models the ValueError that
max() raises on a root without children. -/
noncomputable def MCTS.search (st : MCTS) (pick : ℕ → ℕ) : Except String String :=
  match (st.finalRoot pick).most_visited_child with
  | some c => Except.ok c.answer
  | none => Except.error "max() arg is an empty sequence"

/-- monte_carlo_search_tool: build an MCTS over the default seed
answers, run it, and convert any escaping exception into a plain error
string. -/
noncomputable def monte_carlo_search_tool (question : String) (model : Oracle)
    (iterations : ℕ) (seed_pick : ℕ) (pick : ℕ → ℕ) : String :=
  match (MCTS.init question model DEFAULT_SEED_ANSWERS iterations seed_pick).search pick with
  | Except.ok best_answer => best_answer
  | Except.error e => "Error during MCTS search: " ++ e

/-- A deterministic stub oracle used by the concrete witnesses. -/
def stubOracle : Oracle :=
  { get_critique := fun _ _ => "stub critique",
    improve_answer := fun _ _ _ => "stub improved answer",
    rate_response := fun _ _ => "Rating: 80" }

/-- A childless node used by the concrete witnesses. -/
def leafNode (a : String) (v : ℕ) (w : ℚ) : MCTSNode :=
  MCTSNode.mk "q" a [] v w

/-- A node with a mix of visited and unvisited children. -/
def mixNode : MCTSNode :=
  MCTSNode.mk "q" "a" [leafNode "a1" 1 (1/2), leafNode "a2" 0 0, leafNode "a3" 2 1] 3 (3/2)

/-- A fully expanded node. -/
def fullNode : MCTSNode :=
  MCTSNode.mk "q" "b" [leafNode "b1" 1 0, leafNode "b2" 1 0, leafNode "b3" 1 0] 3 0

/-- A two-level chain used by the backpropagation witness. -/
def chainNode : MCTSNode :=
  MCTSNode.mk "q" "root" [MCTSNode.mk "q" "mid" [leafNode "leaf" 0 0] 1 (1/2)] 1 (1/2)

/-!  Properties of the first-index argmax. -/

theorem npArgmax_lt_length {α : Type} [LinearOrder α] (l : List α) (h : l ≠ []) :
    npArgmax l < l.length := by
  induction l with
  | nil => exact absurd rfl h
  | cons a l ih =>
    rw [npArgmax]
    by_cases hc : l.maximum ≤ (a : WithBot α)
    · simp [hc]
    · have hl : l ≠ [] := by
        intro he
        rw [he, List.maximum_nil] at hc
        exact hc bot_le
      simp only [if_neg hc, List.length_cons]
      have := ih hl
      omega

theorem get?_npArgmax {α : Type} [LinearOrder α] (l : List α) (h : l ≠ []) :
    ∃ x, l.get? (npArgmax l) = some x ∧ (x : WithBot α) = l.maximum := by
  induction l with
  | nil => exact absurd rfl h
  | cons a l ih =>
    rw [npArgmax]
    by_cases hc : l.maximum ≤ (a : WithBot α)
    · refine ⟨a, by simp [hc], ?_⟩
      rw [List.maximum_cons]
      exact (sup_eq_left.mpr hc).symm
    · have hl : l ≠ [] := by
        intro he
        rw [he, List.maximum_nil] at hc
        exact hc bot_le
      obtain ⟨x, hx, hmax⟩ := ih hl
      refine ⟨x, ?_, ?_⟩
      · simp only [if_neg hc, List.get?_cons_succ]
        exact hx
      · rw [List.maximum_cons, hmax]
        exact (sup_eq_right.mpr (le_of_lt (not_le.mp hc))).symm

theorem get?_le_get?_npArgmax {α : Type} [LinearOrder α] (l : List α) (j : ℕ) (x y : α)
    (hy : l.get? j = some y) (hx : l.get? (npArgmax l) = some x) : y ≤ x := by
  induction l generalizing j with
  | nil => simp at hy
  | cons a l ih =>
    rw [npArgmax] at hx
    by_cases hc : l.maximum ≤ (a : WithBot α)
    · rw [if_pos hc] at hx
      have hxa : a = x := by simpa using hx
      cases j with
      | zero =>
        have hya : a = y := by simpa using hy
        rw [← hxa, ← hya]
      | succ j =>
        rw [List.get?_cons_succ] at hy
        have hmem : y ∈ l := List.get?_mem hy
        have h1 : (y : WithBot α) ≤ l.maximum := List.le_maximum_of_mem' hmem
        rw [← hxa]
        exact WithBot.coe_le_coe.mp (le_trans h1 hc)
    · rw [if_neg hc, List.get?_cons_succ] at hx
      have hl : l ≠ [] := by
        intro he
        rw [he, List.maximum_nil] at hc
        exact hc bot_le
      cases j with
      | zero =>
        have hya : a = y := by simpa using hy
        obtain ⟨x0, hx0, hmax⟩ := get?_npArgmax l hl
        have hxx : x0 = x := by rw [hx0] at hx; exact Option.some.inj hx
        have hlt : (a : WithBot α) < l.maximum := not_le.mp hc
        rw [← hmax, hxx] at hlt
        rw [← hya]
        exact le_of_lt (WithBot.coe_lt_coe.mp hlt)
      | succ j =>
        rw [List.get?_cons_succ] at hy
        exact ih j hy hx

theorem get?_lt_get?_npArgmax {α : Type} [LinearOrder α] (l : List α) (j : ℕ) (x y : α)
    (hy : l.get? j = some y) (hx : l.get? (npArgmax l) = some x) (hj : j < npArgmax l) :
    y < x := by
  induction l generalizing j with
  | nil => simp at hy
  | cons a l ih =>
    rw [npArgmax] at hx hj
    by_cases hc : l.maximum ≤ (a : WithBot α)
    · rw [if_pos hc] at hj
      omega
    · rw [if_neg hc, List.get?_cons_succ] at hx
      rw [if_neg hc] at hj
      have hl : l ≠ [] := by
        intro he
        rw [he, List.maximum_nil] at hc
        exact hc bot_le
      cases j with
      | zero =>
        have hya : a = y := by simpa using hy
        obtain ⟨x0, hx0, hmax⟩ := get?_npArgmax l hl
        have hxx : x0 = x := by rw [hx0] at hx; exact Option.some.inj hx
        have hlt : (a : WithBot α) < l.maximum := not_le.mp hc
        rw [← hmax, hxx] at hlt
        rw [← hya]
        exact WithBot.coe_lt_coe.mp hlt
      | succ j =>
        rw [List.get?_cons_succ] at hy
        exact ih j hy hx (by omega)

/-!  Properties of modifyIdx and of the path operations. -/

theorem modifyIdx_length {α : Type} (f : α → α) (i : ℕ) (l : List α) :
    (modifyIdx f i l).length = l.length := by
  induction l generalizing i with
  | nil => cases i <;> rfl
  | cons a l ih =>
    cases i with
    | zero => rfl
    | succ i => simpa [modifyIdx] using ih i

theorem get?_modifyIdx_self {α : Type} (f : α → α) (i : ℕ) (l : List α) :
    (modifyIdx f i l).get? i = (l.get? i).map f := by
  induction l generalizing i with
  | nil => cases i <;> rfl
  | cons a l ih =>
    cases i with
    | zero => rfl
    | succ i => simpa [modifyIdx] using ih i

theorem get?_modifyIdx_ne {α : Type} (f : α → α) (i j : ℕ) (l : List α) (hij : i ≠ j) :
    (modifyIdx f j l).get? i = l.get? i := by
  induction l generalizing i j with
  | nil => cases j <;> rfl
  | cons a l ih =>
    cases j with
    | zero =>
      cases i with
      | zero => exact absurd rfl hij
      | succ i => rfl
    | succ j =>
      cases i with
      | zero => rfl
      | succ i => simpa [modifyIdx] using ih i j (by omega)

theorem getNode_append (t : MCTSNode) (p p' : List ℕ) :
    getNode t (p ++ p') = (getNode t p).bind (fun m => getNode m p') := by
  induction p generalizing t with
  | nil => rfl
  | cons i p ih =>
    cases t with
    | mk q a cs v w =>
      simp only [List.cons_append, getNode, MCTSNode.children]
      cases hc : cs.get? i with
      | none => rfl
      | some c => exact ih c

theorem isPathPre_nil (p : List ℕ) : isPathPre [] p = true := rfl

theorem isPathPre_iff (q p : List ℕ) : isPathPre q p = true ↔ ∃ s, p = q ++ s := by
  induction q generalizing p with
  | nil => simp [isPathPre]
  | cons i q ih =>
    cases p with
    | nil =>
      simp only [isPathPre]
      constructor
      · intro h; exact absurd h (by simp)
      · rintro ⟨s, hs⟩; simp at hs
    | cons j p =>
      simp only [isPathPre, Bool.and_eq_true, beq_iff_eq]
      rw [ih p]
      constructor
      · rintro ⟨rfl, s, rfl⟩; exact ⟨s, rfl⟩
      · rintro ⟨s, hs⟩
        injection hs with h1 h2
        exact ⟨h1.symm, s, h2⟩

@[simp] theorem question_mk (q a : String) (cs : List MCTSNode) (v : ℕ) (w : ℚ) :
    (MCTSNode.mk q a cs v w).question = q := rfl

@[simp] theorem answer_mk (q a : String) (cs : List MCTSNode) (v : ℕ) (w : ℚ) :
    (MCTSNode.mk q a cs v w).answer = a := rfl

@[simp] theorem children_mk (q a : String) (cs : List MCTSNode) (v : ℕ) (w : ℚ) :
    (MCTSNode.mk q a cs v w).children = cs := rfl

@[simp] theorem visits_mk (q a : String) (cs : List MCTSNode) (v : ℕ) (w : ℚ) :
    (MCTSNode.mk q a cs v w).visits = v := rfl

@[simp] theorem value_mk (q a : String) (cs : List MCTSNode) (v : ℕ) (w : ℚ) :
    (MCTSNode.mk q a cs v w).value = w := rfl

@[simp] theorem getNode_nil (t : MCTSNode) : getNode t [] = some t := rfl

theorem getNode_cons (t : MCTSNode) (i : ℕ) (p : List ℕ) :
    getNode t (i :: p) = (t.children.get? i).bind (fun c => getNode c p) := by
  cases t with
  | mk q a cs v w =>
    simp only [getNode, children_mk]
    cases cs.get? i <;> rfl

theorem backpropagate_fields (r : ℚ) (t : MCTSNode) (p : List ℕ) :
    (backpropagate r t p).question = t.question ∧
    (backpropagate r t p).answer = t.answer ∧
    (backpropagate r t p).children.length = t.children.length ∧
    (backpropagate r t p).visits = t.visits + 1 ∧
    (backpropagate r t p).value = t.value + r := by
  cases t with
  | mk qq aa cs v w =>
    cases p with
    | nil => simp [backpropagate]
    | cons j p => simp [backpropagate, modifyIdx_length]

theorem getNode_backpropagate_none (r : ℚ) (t : MCTSNode) (p0 p : List ℕ)
    (h : getNode t p = none) : getNode (backpropagate r t p0) p = none := by
  induction p generalizing t p0 with
  | nil => simp at h
  | cons i p ih =>
    cases t with
    | mk qq aa cs v w =>
      rw [getNode_cons] at h
      cases p0 with
      | nil =>
        rw [backpropagate, getNode_cons]
        simpa using h
      | cons j p0 =>
        rw [backpropagate, getNode_cons]
        simp only [children_mk]
        by_cases hij : i = j
        · subst hij
          rw [get?_modifyIdx_self]
          cases hc : cs.get? i with
          | none => rfl
          | some c =>
            simp only [children_mk, hc, Option.bind_some] at h
            simp only [Option.map_some', Option.bind_some]
            exact ih c p0 h
        · rw [get?_modifyIdx_ne _ _ _ _ hij]
          simpa using h

theorem getNode_backpropagate (r : ℚ) (t m : MCTSNode) (p q : List ℕ)
    (hq : getNode t q = some m) :
    ∃ m2, getNode (backpropagate r t p) q = some m2 ∧
      (isPathPre q p = true →
        m2.question = m.question ∧ m2.answer = m.answer ∧
        m2.children.length = m.children.length ∧
        m2.visits = m.visits + 1 ∧ m2.value = m.value + r) ∧
      (isPathPre q p = false → m2 = m) := by
  induction q generalizing t p with
  | nil =>
    have hm : t = m := by simpa using hq
    subst hm
    refine ⟨backpropagate r t p, rfl, fun _ => ?_, fun hf => ?_⟩
    · obtain ⟨h1, h2, h3, h4, h5⟩ := backpropagate_fields r t p
      exact ⟨h1, h2, h3, h4, h5⟩
    · exact absurd hf (by simp [isPathPre])
  | cons i q' ih =>
    cases t with
    | mk qq aa cs v w =>
      rw [getNode_cons] at hq
      simp only [children_mk] at hq
      obtain ⟨c, hc, hcq⟩ := Option.bind_eq_some.mp hq
      cases p with
      | nil =>
        refine ⟨m, ?_, fun ht => ?_, fun _ => rfl⟩
        · rw [backpropagate, getNode_cons]
          simp only [children_mk, hc, Option.bind_some]
          exact hcq
        · exact absurd ht (by simp [isPathPre])
      | cons j p' =>
        by_cases hij : i = j
        · subst hij
          obtain ⟨m2, hm2, htrue, hfalse⟩ := ih c p' hcq
          refine ⟨m2, ?_, fun ht => ?_, fun hf => ?_⟩
          · rw [backpropagate, getNode_cons]
            simp only [children_mk, get?_modifyIdx_self, hc, Option.map_some',
              Option.bind_some]
            exact hm2
          · have : isPathPre q' p' = true := by
              simpa [isPathPre] using ht
            exact htrue this
          · have : isPathPre q' p' = false := by
              simpa [isPathPre] using hf
            exact hfalse this
        · refine ⟨m, ?_, fun ht => ?_, fun _ => rfl⟩
          · rw [backpropagate, getNode_cons]
            simp only [children_mk, get?_modifyIdx_ne _ _ _ _ hij, hc, Option.bind_some]
            exact hcq
          · exact absurd ht (by simp [isPathPre, hij])

theorem getNode_setNode_pre (t m : MCTSNode) (p q : List ℕ)
    (hpre : isPathPre p q = true) (hval : (getNode t p).isSome) :
    getNode (setNode t p m) q = getNode m (q.drop p.length) := by
  induction p generalizing t q with
  | nil => simp [setNode]
  | cons i p ih =>
    cases t with
    | mk qq aa cs v w =>
      cases q with
      | nil => simp [isPathPre] at hpre
      | cons i' q' =>
        have hii : i = i' := by
          simp only [isPathPre, Bool.and_eq_true, beq_iff_eq] at hpre
          exact hpre.1
        subst hii
        have hpre' : isPathPre p q' = true := by
          simp only [isPathPre, Bool.and_eq_true, beq_iff_eq] at hpre
          exact hpre.2
        rw [getNode_cons] at hval
        simp only [children_mk] at hval
        cases hc : cs.get? i with
        | none => rw [hc] at hval; simp at hval
        | some c =>
          rw [hc] at hval
          have hval' : (getNode c p).isSome = true := hval
          rw [setNode, getNode_cons]
          simp only [children_mk, get?_modifyIdx_self, hc, Option.map_some',
            Option.bind_some, List.length_cons, List.drop_succ_cons]
          exact ih c q' hpre' hval'

theorem getNode_setNode_above (t m m1 : MCTSNode) (p q : List ℕ)
    (hpre : isPathPre q p = true) (hne : q ≠ p) (hm1 : getNode t q = some m1) :
    ∃ m2, getNode (setNode t p m) q = some m2 ∧
      m2.question = m1.question ∧ m2.answer = m1.answer ∧
      m2.children.length = m1.children.length ∧
      m2.visits = m1.visits ∧ m2.value = m1.value := by
  induction q generalizing t p with
  | nil =>
    have hm : t = m1 := by simpa using hm1
    subst hm
    cases p with
    | nil => exact absurd rfl hne
    | cons j p' =>
      cases t with
      | mk qq aa cs v w =>
        refine ⟨_, rfl, ?_⟩
        simp [setNode, modifyIdx_length]
  | cons i q' ih =>
    cases p with
    | nil => simp [isPathPre] at hpre
    | cons j p' =>
      have hij : i = j := by
        simp only [isPathPre, Bool.and_eq_true, beq_iff_eq] at hpre
        exact hpre.1
      subst hij
      have hpre' : isPathPre q' p' = true := by
        simp only [isPathPre, Bool.and_eq_true, beq_iff_eq] at hpre
        exact hpre.2
      have hne' : q' ≠ p' := by
        intro he; exact hne (by rw [he])
      cases t with
      | mk qq aa cs v w =>
        rw [getNode_cons] at hm1
        simp only [children_mk] at hm1
        obtain ⟨c, hc, hcq⟩ := Option.bind_eq_some.mp hm1
        obtain ⟨m2, hm2, hf⟩ := ih c p' hpre' hne' hcq
        refine ⟨m2, ?_, hf⟩
        rw [setNode, getNode_cons]
        simp only [children_mk, get?_modifyIdx_self, hc, Option.map_some', Option.bind_some]
        exact hm2

theorem getNode_setNode_other (t m : MCTSNode) (p q : List ℕ)
    (h1 : isPathPre p q = false) (h2 : isPathPre q p = false) :
    getNode (setNode t p m) q = getNode t q := by
  induction q generalizing t p with
  | nil => simp [isPathPre] at h2
  | cons i q' ih =>
    cases p with
    | nil => simp [isPathPre] at h1
    | cons j p' =>
      cases t with
      | mk qq aa cs v w =>
        by_cases hij : i = j
        · subst hij
          have h1' : isPathPre p' q' = false := by
            simpa [isPathPre] using h1
          have h2' : isPathPre q' p' = false := by
            simpa [isPathPre] using h2
          rw [setNode, getNode_cons, getNode_cons]
          simp only [children_mk, get?_modifyIdx_self]
          cases hc : cs.get? i with
          | none => rfl
          | some c =>
            simp only [Option.map_some', Option.bind_some]
            exact ih c p' h1' h2'
        · rw [setNode, getNode_cons, getNode_cons]
          simp only [children_mk, get?_modifyIdx_ne _ _ _ _ hij]

theorem expand_fields (o : Oracle) (qs : String) (n : MCTSNode) :
    (expand o qs n).question = n.question ∧ (expand o qs n).answer = n.answer ∧
    (expand o qs n).visits = n.visits ∧ (expand o qs n).value = n.value ∧
    (expand o qs n).children.length =
      n.children.length + (MAX_CHILDREN - n.children.length) := by
  simp [expand]

theorem getNode_expand_cases (o : Oracle) (qs : String) (sel m : MCTSNode) (p : List ℕ)
    (h : getNode (expand o qs sel) p = some m) :
    (p = [] ∧ m = expand o qs sel) ∨
    (p ≠ [] ∧ getNode sel p = some m) ∨
    m = mkChild o qs sel.answer := by
  cases p with
  | nil =>
    left
    exact ⟨rfl, by simpa using h.symm⟩
  | cons j rest =>
    right
    rw [getNode_cons] at h
    simp only [expand, children_mk] at h
    by_cases hj : j < sel.children.length
    · left
      refine ⟨by simp, ?_⟩
      rw [List.get?_append hj] at h
      rw [getNode_cons]
      exact h
    · right
      rw [List.get?_append_right (by omega)] at h
      cases hrep : (List.replicate (MAX_CHILDREN - sel.children.length)
          (mkChild o qs sel.answer)).get? (j - sel.children.length) with
      | none => rw [hrep] at h; simp at h
      | some c =>
        have hc : c = mkChild o qs sel.answer := by
          have := List.get?_mem hrep
          exact List.eq_of_mem_replicate this
        rw [hrep] at h
        have h' : getNode c rest = some m := h
        subst hc
        cases rest with
        | nil => simpa [mkChild] using h'.symm
        | cons r rest' =>
          rw [getNode_cons] at h'
          simp [mkChild] at h'

theorem best_child_idx_lt (n : MCTSNode) (ew : ℝ) (h : n.children ≠ []) :
    n.best_child_idx ew < n.children.length := by
  have hmap : n.children.map (MCTSNode.ucb_weight n.visits ew) ≠ [] := by
    simpa using h
  have h2 := npArgmax_lt_length _ hmap
  simpa [MCTSNode.best_child_idx] using h2

theorem not_fully_expanded_of_nil (n : MCTSNode) (h : n.children = []) :
    n.is_fully_expanded = false := by
  simp [MCTSNode.is_fully_expanded, h, MAX_CHILDREN]

theorem children_ne_nil_of_fully_expanded (n : MCTSNode)
    (h : n.is_fully_expanded = true) : n.children ≠ [] := by
  intro he
  rw [not_fully_expanded_of_nil n he] at h
  exact Bool.false_ne_true h

theorem select_eq_nil (n : MCTSNode) (h : n.is_fully_expanded = false) :
    select n = [] := by
  rw [select]
  simp [h]

theorem select_valid_aux (k : ℕ) :
    ∀ n : MCTSNode, sizeOf n ≤ k →
      ∃ m, getNode n (select n) = some m ∧ m.is_fully_expanded = false := by
  induction k with
  | zero =>
    intro n hn
    cases n with
    | mk q a cs v w =>
      simp only [MCTSNode.mk.sizeOf_spec] at hn
      omega
  | succ k ih =>
    intro n hn
    by_cases hf : n.is_fully_expanded = true
    · have hne : n.children ≠ [] := children_ne_nil_of_fully_expanded n hf
      have hidx := best_child_idx_lt n 1.41 hne
      cases hc : n.children.get? (n.best_child_idx 1.41) with
      | none =>
        exfalso
        rw [List.get?_eq_none] at hc
        omega
      | some c =>
        have hsel : select n = n.best_child_idx 1.41 :: select c := by
          rw [select]
          have hcond : (n.is_fully_expanded && !n.children.isEmpty) = true := by
            simp [hf, List.isEmpty_iff, hne]
          rw [if_pos hcond, hc]
        have hsize : sizeOf c ≤ k := by
          have := sizeOf_lt_of_mem_children n c (List.get?_mem hc)
          omega
        obtain ⟨m, hm, hmf⟩ := ih c hsize
        refine ⟨m, ?_, hmf⟩
        rw [hsel, getNode_cons, hc]
        exact hm
    · have hf' : n.is_fully_expanded = false := by
        cases hb : n.is_fully_expanded
        · rfl
        · exact absurd hb hf
      refine ⟨n, ?_, hf'⟩
      rw [select_eq_nil n hf']
      rfl

theorem select_valid (n : MCTSNode) :
    ∃ m, getNode n (select n) = some m ∧ m.is_fully_expanded = false :=
  select_valid_aux (sizeOf n) n le_rfl

theorem setNode_nil (t m : MCTSNode) : setNode t [] m = m := by
  cases t <;> rfl

theorem children_length_backpropagate (r : ℚ) (t : MCTSNode) (p : List ℕ) :
    (backpropagate r t p).children.length = t.children.length :=
  (backpropagate_fields r t p).2.2.1

theorem searchStep_eq_expand (o : Oracle) (qs : String) (k : ℕ) (root : MCTSNode) :
    ∃ sel, getNode root (select root) = some sel ∧ sel.is_fully_expanded = false ∧
      searchStep o qs k root = expand_and_simulate o qs k root (select root) sel := by
  obtain ⟨sel, hsel, hfe⟩ := select_valid root
  refine ⟨sel, hsel, hfe, ?_⟩
  simp only [searchStep, hsel, hfe]
  simp

theorem fully_expanded_of_length (root : MCTSNode)
    (h : root.children.length = MAX_CHILDREN) : root.is_fully_expanded = true := by
  simp [MCTSNode.is_fully_expanded, h]

theorem searchStep_children_length (o : Oracle) (qs : String) (k : ℕ) (root : MCTSNode)
    (h : root.children.length = MAX_CHILDREN) :
    (searchStep o qs k root).children.length = MAX_CHILDREN := by
  obtain ⟨sel, hsel, hfe, hstep⟩ := searchStep_eq_expand o qs k root
  rw [hstep]
  have hp : select root ≠ [] := by
    intro hnil
    rw [hnil] at hsel
    have hrs : root = sel := by simpa using hsel
    rw [← hrs, fully_expanded_of_length root h] at hfe
    simp at hfe
  obtain ⟨i, rest, hcons⟩ := List.exists_cons_of_ne_nil hp
  rw [hcons]
  simp only [expand_and_simulate]
  rw [children_length_backpropagate]
  cases root with
  | mk q a cs v w =>
    rw [setNode]
    simpa [modifyIdx_length] using h

theorem searchStep_of_no_children (o : Oracle) (qs : String) (k : ℕ) (root : MCTSNode)
    (h : root.children = []) :
    (searchStep o qs k root).children.length = MAX_CHILDREN := by
  have hfe := not_fully_expanded_of_nil root h
  have hsel0 : select root = [] := select_eq_nil root hfe
  simp only [searchStep, hsel0, getNode_nil, hfe]
  simp only [Bool.false_eq_true, if_false]
  simp only [expand_and_simulate, setNode_nil]
  rw [children_length_backpropagate]
  simp [expand, h, MAX_CHILDREN]

theorem runRoot_zero (st : MCTS) (pick : ℕ → ℕ) : st.runRoot pick 0 = st.root := rfl

theorem runRoot_succ (st : MCTS) (pick : ℕ → ℕ) (k : ℕ) :
    st.runRoot pick (k + 1) =
      searchStep st.oracle st.question (pick k) (st.runRoot pick k) := by
  simp only [MCTS.runRoot, List.range_succ, List.foldl_append, List.foldl_cons,
    List.foldl_nil]

theorem init_root_children (q : String) (o : Oracle) (seeds : List String)
    (iters seed_pick : ℕ) :
    (MCTS.init q o seeds iters seed_pick).root.children = [] := rfl

theorem runRoot_children_length (q : String) (o : Oracle) (seeds : List String)
    (iters seed_pick : ℕ) (pick : ℕ → ℕ) (k : ℕ) (hk : 1 ≤ k) :
    ((MCTS.init q o seeds iters seed_pick).runRoot pick k).children.length =
      MAX_CHILDREN := by
  induction k with
  | zero => omega
  | succ k ih =>
    rw [runRoot_succ]
    by_cases hk1 : 1 ≤ k
    · exact searchStep_children_length _ _ _ _ (ih hk1)
    · have hk0 : k = 0 := by omega
      subst hk0
      rw [runRoot_zero]
      exact searchStep_of_no_children _ _ _ _ (init_root_children q o seeds iters seed_pick)

theorem most_visited_child_spec (n : MCTSNode) (h : n.children ≠ []) :
    ∃ (i : ℕ) (hi : i < n.children.length),
      n.most_visited_child = some (n.children.get ⟨i, hi⟩) ∧
      (∀ (j : ℕ) (hj : j < n.children.length),
        (n.children.get ⟨j, hj⟩).visits ≤ (n.children.get ⟨i, hi⟩).visits) ∧
      (∀ (j : ℕ) (hj : j < n.children.length), j < i →
        (n.children.get ⟨j, hj⟩).visits < (n.children.get ⟨i, hi⟩).visits) := by
  have hmap : n.children.map MCTSNode.visits ≠ [] := by simpa using h
  have hlt := npArgmax_lt_length _ hmap
  rw [List.length_map] at hlt
  refine ⟨npArgmax (n.children.map MCTSNode.visits), hlt, ?_, ?_, ?_⟩
  · rw [MCTSNode.most_visited_child, List.get?_eq_get hlt]
  · intro j hj
    refine get?_le_get?_npArgmax (n.children.map MCTSNode.visits) j _ _ ?_ ?_
    · rw [List.get?_map, List.get?_eq_get hj]
      rfl
    · rw [List.get?_map, List.get?_eq_get hlt]
      rfl
  · intro j hj hji
    refine get?_lt_get?_npArgmax (n.children.map MCTSNode.visits) j _ _ ?_ ?_ hji
    · rw [List.get?_map, List.get?_eq_get hj]
      rfl
    · rw [List.get?_map, List.get?_eq_get hlt]
      rfl

theorem isPathPre_refl (p : List ℕ) : isPathPre p p = true := by
  induction p with
  | nil => rfl
  | cons i p ih => simp [isPathPre, ih]

/-- Every node of the tree satisfies the fan-out bound. -/
def childBound (t : MCTSNode) : Prop :=
  ∀ (p : List ℕ) (m : MCTSNode), getNode t p = some m →
    m.children.length ≤ MAX_CHILDREN

/-- Every node of the tree with zero visits has value zero. -/
def zeroInv (t : MCTSNode) : Prop :=
  ∀ (p : List ℕ) (m : MCTSNode), getNode t p = some m →
    m.visits = 0 → m.value = 0

theorem childBound_backpropagate (r : ℚ) (t : MCTSNode) (p0 : List ℕ)
    (H : childBound t) : childBound (backpropagate r t p0) := by
  intro p m hm
  cases hm0 : getNode t p with
  | none =>
    rw [getNode_backpropagate_none r t p0 p hm0] at hm
    exact absurd hm (by simp)
  | some m1 =>
    obtain ⟨m2, hm2, htrue, hfalse⟩ := getNode_backpropagate r t m1 p0 p hm0
    rw [hm] at hm2
    have hmm : m = m2 := Option.some.inj hm2
    cases hpre : isPathPre p p0 with
    | true =>
      obtain ⟨_, _, hlen, _, _⟩ := htrue hpre
      rw [hmm, hlen]
      exact H p m1 hm0
    | false =>
      rw [hmm, hfalse hpre]
      exact H p m1 hm0

theorem zeroInv_backpropagate (r : ℚ) (t : MCTSNode) (p0 : List ℕ)
    (H : zeroInv t) : zeroInv (backpropagate r t p0) := by
  intro p m hm
  cases hm0 : getNode t p with
  | none =>
    rw [getNode_backpropagate_none r t p0 p hm0] at hm
    exact absurd hm (by simp)
  | some m1 =>
    obtain ⟨m2, hm2, htrue, hfalse⟩ := getNode_backpropagate r t m1 p0 p hm0
    rw [hm] at hm2
    have hmm : m = m2 := Option.some.inj hm2
    cases hpre : isPathPre p p0 with
    | true =>
      obtain ⟨_, _, _, hv, _⟩ := htrue hpre
      intro h0
      rw [hmm, hv] at h0
      omega
    | false =>
      rw [hmm, hfalse hpre]
      exact H p m1 hm0

theorem childBound_expand (o : Oracle) (qs : String) (sel : MCTSNode)
    (Hsel : childBound sel) : childBound (expand o qs sel) := by
  intro p m hm
  rcases getNode_expand_cases o qs sel m p hm with ⟨_, rfl⟩ | ⟨_, hg⟩ | rfl
  · have hlen := (expand_fields o qs sel).2.2.2.2
    have hsel_len : sel.children.length ≤ MAX_CHILDREN := Hsel [] sel rfl
    rw [hlen]
    simp only [MAX_CHILDREN] at hsel_len ⊢
    omega
  · exact Hsel p m hg
  · simp [mkChild, MAX_CHILDREN]

theorem zeroInv_expand (o : Oracle) (qs : String) (sel : MCTSNode)
    (Hsel : zeroInv sel) : zeroInv (expand o qs sel) := by
  intro p m hm
  rcases getNode_expand_cases o qs sel m p hm with ⟨_, rfl⟩ | ⟨_, hg⟩ | rfl
  · obtain ⟨_, _, hv, hw, _⟩ := expand_fields o qs sel
    intro h0
    rw [hv] at h0
    rw [hw]
    exact Hsel [] sel rfl h0
  · exact Hsel p m hg
  · intro h0
    simp [mkChild]

theorem childBound_setNode (t mNew : MCTSNode) (p : List ℕ) (sel : MCTSNode)
    (hval : getNode t p = some sel) (Ht : childBound t) (Hm : childBound mNew) :
    childBound (setNode t p mNew) := by
  intro q m hm
  cases hpq : isPathPre p q with
  | true =>
    rw [getNode_setNode_pre t mNew p q hpq (by rw [hval]; rfl)] at hm
    exact Hm _ m hm
  | false =>
    cases hqp : isPathPre q p with
    | true =>
      have hne : q ≠ p := by
        intro he
        rw [he, isPathPre_refl] at hpq
        exact absurd hpq (by simp)
      obtain ⟨s, hs⟩ := (isPathPre_iff q p).mp hqp
      have hq_some : (getNode t q).isSome := by
        rw [hs, getNode_append] at hval
        cases hq0 : getNode t q with
        | none => rw [hq0] at hval; simp at hval
        | some _ => simp
      obtain ⟨m1, hm1⟩ := Option.isSome_iff_exists.mp hq_some
      obtain ⟨m2, hm2, _, _, hlen, _, _⟩ :=
        getNode_setNode_above t mNew m1 p q hqp hne hm1
      rw [hm] at hm2
      have hmm : m = m2 := Option.some.inj hm2
      rw [hmm, hlen]
      exact Ht q m1 hm1
    | false =>
      rw [getNode_setNode_other t mNew p q hpq hqp] at hm
      exact Ht q m hm

theorem zeroInv_setNode (t mNew : MCTSNode) (p : List ℕ) (sel : MCTSNode)
    (hval : getNode t p = some sel) (Ht : zeroInv t) (Hm : zeroInv mNew) :
    zeroInv (setNode t p mNew) := by
  intro q m hm
  cases hpq : isPathPre p q with
  | true =>
    rw [getNode_setNode_pre t mNew p q hpq (by rw [hval]; rfl)] at hm
    exact Hm _ m hm
  | false =>
    cases hqp : isPathPre q p with
    | true =>
      have hne : q ≠ p := by
        intro he
        rw [he, isPathPre_refl] at hpq
        exact absurd hpq (by simp)
      obtain ⟨s, hs⟩ := (isPathPre_iff q p).mp hqp
      have hq_some : (getNode t q).isSome := by
        rw [hs, getNode_append] at hval
        cases hq0 : getNode t q with
        | none => rw [hq0] at hval; simp at hval
        | some _ => simp
      obtain ⟨m1, hm1⟩ := Option.isSome_iff_exists.mp hq_some
      obtain ⟨m2, hm2, _, _, _, hv, hw⟩ :=
        getNode_setNode_above t mNew m1 p q hqp hne hm1
      rw [hm] at hm2
      have hmm : m = m2 := Option.some.inj hm2
      intro h0
      rw [hmm, hv] at h0
      rw [hmm, hw]
      exact Ht q m1 hm1 h0
    | false =>
      rw [getNode_setNode_other t mNew p q hpq hqp] at hm
      exact Ht q m hm

theorem childBound_sub (root sel : MCTSNode) (p0 : List ℕ)
    (hsel : getNode root p0 = some sel) (H : childBound root) : childBound sel := by
  intro p m hm
  have hfull : getNode root (p0 ++ p) = some m := by
    rw [getNode_append, hsel]
    exact hm
  exact H _ m hfull

theorem zeroInv_sub (root sel : MCTSNode) (p0 : List ℕ)
    (hsel : getNode root p0 = some sel) (H : zeroInv root) : zeroInv sel := by
  intro p m hm
  have hfull : getNode root (p0 ++ p) = some m := by
    rw [getNode_append, hsel]
    exact hm
  exact H _ m hfull

theorem childBound_searchStep (o : Oracle) (qs : String) (k : ℕ) (root : MCTSNode)
    (H : childBound root) : childBound (searchStep o qs k root) := by
  obtain ⟨sel, hsel, hfe, hstep⟩ := searchStep_eq_expand o qs k root
  rw [hstep]
  simp only [expand_and_simulate]
  apply childBound_backpropagate
  exact childBound_setNode root _ _ sel hsel H
    (childBound_expand o qs sel (childBound_sub root sel _ hsel H))

theorem zeroInv_searchStep (o : Oracle) (qs : String) (k : ℕ) (root : MCTSNode)
    (H : zeroInv root) : zeroInv (searchStep o qs k root) := by
  obtain ⟨sel, hsel, hfe, hstep⟩ := searchStep_eq_expand o qs k root
  rw [hstep]
  simp only [expand_and_simulate]
  apply zeroInv_backpropagate
  exact zeroInv_setNode root _ _ sel hsel H
    (zeroInv_expand o qs sel (zeroInv_sub root sel _ hsel H))

theorem childBound_init (q : String) (o : Oracle) (seeds : List String)
    (iters seed_pick : ℕ) : childBound (MCTS.init q o seeds iters seed_pick).root := by
  intro p m hm
  cases p with
  | nil =>
    have hme : (MCTS.init q o seeds iters seed_pick).root = m := by simpa using hm
    rw [← hme]
    simp [MCTS.init, MAX_CHILDREN]
  | cons i p' =>
    rw [getNode_cons, init_root_children] at hm
    simp at hm

theorem zeroInv_init (q : String) (o : Oracle) (seeds : List String)
    (iters seed_pick : ℕ) : zeroInv (MCTS.init q o seeds iters seed_pick).root := by
  intro p m hm
  cases p with
  | nil =>
    have hme : (MCTS.init q o seeds iters seed_pick).root = m := by simpa using hm
    rw [← hme]
    intro h0
    simp [MCTS.init]
  | cons i p' =>
    rw [getNode_cons, init_root_children] at hm
    simp at hm

theorem childBound_runRoot (q : String) (o : Oracle) (seeds : List String)
    (iters seed_pick : ℕ) (pick : ℕ → ℕ) (k : ℕ) :
    childBound ((MCTS.init q o seeds iters seed_pick).runRoot pick k) := by
  induction k with
  | zero => exact childBound_init q o seeds iters seed_pick
  | succ k ih =>
    rw [runRoot_succ]
    exact childBound_searchStep _ _ _ _ ih

theorem zeroInv_runRoot (q : String) (o : Oracle) (seeds : List String)
    (iters seed_pick : ℕ) (pick : ℕ → ℕ) (k : ℕ) :
    zeroInv ((MCTS.init q o seeds iters seed_pick).runRoot pick k) := by
  induction k with
  | zero => exact zeroInv_init q o seeds iters seed_pick
  | succ k ih =>
    rw [runRoot_succ]
    exact zeroInv_searchStep _ _ _ _ ih

/-- C4: the rate_answer numeric extraction turns a response containing
Rating: 87 into the score 0.87, caps Rating: 99 at 0.95, returns 0.0
without raising on a response without the label, and every returned
score lies between 0 and 0.95. -/
theorem rate_extraction_spec :
    rate_of_response "Critique: fine\nRating: 87" = 87 / 100 ∧
    rate_of_response "Critique: fine\nRating: 99" = 95 / 100 ∧
    rate_of_response "no label here" = 0 ∧
    ∀ s : String, 0 ≤ rate_of_response s ∧ rate_of_response s ≤ 95 / 100 := by
  have h87 : findRating "Critique: fine\nRating: 87".data = some 87 := by decide
  have h99 : findRating "Critique: fine\nRating: 99".data = some 99 := by decide
  have hno : findRating "no label here".data = none := by decide
  refine ⟨?_, ?_, ?_, ?_⟩
  · unfold rate_of_response
    rw [h87]
    norm_num
  · unfold rate_of_response
    rw [h99]
    norm_num
  · unfold rate_of_response
    rw [hno]
  intro s
  unfold rate_of_response
  cases h : findRating s.data with
  | none => norm_num
  | some r0 =>
    simp only []
    have hr : (if 95 < r0 then 95 else r0) ≤ 95 := by split <;> omega
    have hq : ((if 95 < r0 then 95 else r0 : ℕ) : ℚ) ≤ 95 := by exact_mod_cast hr
    have hq0 : (0 : ℚ) ≤ ((if 95 < r0 then 95 else r0 : ℕ) : ℚ) := by positivity
    constructor
    · linarith
    · linarith

/-- C1 counterexample: at a concrete failing oracle call the exception
propagates out of rate_answer instead of producing the score 0.0,
because the llm.invoke call stands outside the try block. -/
theorem rate_answer_oracle_error_propagates :
    rate_answer (Except.error "boom") = Except.error "boom" ∧
    rate_answer (Except.error "boom") ≠ Except.ok (0 : ℚ) :=
  ⟨rfl, fun h => Except.noConfusion h⟩

/-- C1 (amended): when the oracle call returns but its response text
contains no Rating field, rate_answer returns the score 0.0 instead of
raising; when the oracle call itself fails, the exception propagates
out of rate_answer. -/
theorem rate_answer_error_recovery :
    (∀ s : String, findRating s.data = none →
      rate_answer (Except.ok s) = Except.ok 0) ∧
    (∀ e : String, rate_answer (Except.error e) = Except.error e) := by
  constructor
  · intro s hs
    simp only [rate_answer, rate_of_response, hs]
  · intro e
    rfl

theorem rate_answer_error_recovery_witness :
    findRating "no label".data = none ∧
    rate_answer (Except.ok "no label") = Except.ok 0 :=
  ⟨by decide, rate_answer_error_recovery.1 "no label" (by decide)⟩

/-- C3: backpropagate increments visits by one and adds the reward to
value at every node on the path from the updated node up to and
including the root, and leaves every other node of the tree unchanged. -/
theorem backpropagate_path_spec (r : ℚ) (t m : MCTSNode) (p q : List ℕ)
    (hq : getNode t q = some m) :
    ∃ m2, getNode (backpropagate r t p) q = some m2 ∧
      (isPathPre q p = true →
        m2.visits = m.visits + 1 ∧ m2.value = m.value + r ∧
        m2.question = m.question ∧ m2.answer = m.answer ∧
        m2.children.length = m.children.length) ∧
      (isPathPre q p = false → m2 = m) := by
  obtain ⟨m2, h1, h2, h3⟩ := getNode_backpropagate r t m p q hq
  refine ⟨m2, h1, fun ht => ?_, h3⟩
  obtain ⟨ha, hb, hc, hd, he⟩ := h2 ht
  exact ⟨hd, he, ha, hb, hc⟩

theorem backpropagate_path_spec_witness :
    getNode chainNode [0, 0] = some (leafNode "leaf" 0 0) ∧
    ∃ m2, getNode (backpropagate 1 chainNode [0, 0]) [0, 0] = some m2 := by
  obtain ⟨m2, hm2, _⟩ :=
    backpropagate_path_spec 1 chainNode (leafNode "leaf" 0 0) [0, 0] [0, 0] rfl
  exact ⟨rfl, m2, hm2⟩

/-- C8: the tool wrapper returns the search result on success and
converts an exception escaping the search into the plain error string
prefixed by Error during MCTS search, never propagating it. -/
theorem monte_carlo_search_tool_spec (question : String) (model : Oracle)
    (iterations seed_pick : ℕ) (pick : ℕ → ℕ) :
    (∀ a, (MCTS.init question model DEFAULT_SEED_ANSWERS iterations seed_pick).search pick
        = Except.ok a →
      monte_carlo_search_tool question model iterations seed_pick pick = a) ∧
    (∀ e, (MCTS.init question model DEFAULT_SEED_ANSWERS iterations seed_pick).search pick
        = Except.error e →
      monte_carlo_search_tool question model iterations seed_pick pick =
        "Error during MCTS search: " ++ e) := by
  constructor
  · intro a ha
    simp only [monte_carlo_search_tool, ha]
  · intro e he
    simp only [monte_carlo_search_tool, he]

theorem monte_carlo_search_tool_spec_witness :
    ((MCTS.init "q" stubOracle DEFAULT_SEED_ANSWERS 0 0).search (fun _ => 0)
      = Except.error "max() arg is an empty sequence") ∧
    monte_carlo_search_tool "q" stubOracle 0 0 (fun _ => 0) =
      "Error during MCTS search: max() arg is an empty sequence" :=
  ⟨rfl, (monte_carlo_search_tool_spec "q" stubOracle 0 0 (fun _ => 0)).2
    "max() arg is an empty sequence" rfl⟩

theorem weight_le_best (n : MCTSNode) (ew : ℝ) (j : ℕ) (hj : j < n.children.length)
    (hi : n.best_child_idx ew < n.children.length) :
    MCTSNode.ucb_weight n.visits ew (n.children.get ⟨j, hj⟩) ≤
      MCTSNode.ucb_weight n.visits ew (n.children.get ⟨n.best_child_idx ew, hi⟩) := by
  apply get?_le_get?_npArgmax (n.children.map (MCTSNode.ucb_weight n.visits ew)) j
  · rw [List.get?_map, List.get?_eq_get hj]
    rfl
  · show (n.children.map (MCTSNode.ucb_weight n.visits ew)).get? (n.best_child_idx ew) = _
    rw [List.get?_map, List.get?_eq_get hi]
    rfl

theorem weight_lt_best (n : MCTSNode) (ew : ℝ) (j : ℕ) (hj : j < n.children.length)
    (hi : n.best_child_idx ew < n.children.length) (hji : j < n.best_child_idx ew) :
    MCTSNode.ucb_weight n.visits ew (n.children.get ⟨j, hj⟩) <
      MCTSNode.ucb_weight n.visits ew (n.children.get ⟨n.best_child_idx ew, hi⟩) := by
  apply get?_lt_get?_npArgmax (n.children.map (MCTSNode.ucb_weight n.visits ew)) j
    _ _ ?_ ?_ hji
  · rw [List.get?_map, List.get?_eq_get hj]
    rfl
  · show (n.children.map (MCTSNode.ucb_weight n.visits ew)).get? (n.best_child_idx ew) = _
    rw [List.get?_map, List.get?_eq_get hi]
    rfl

/-- C2: on a node with children and positive visits, best_child picks
the child of maximal UCB1 weight value/visits plus
exploration_weight * sqrt(2 ln(parent visits) / visits), a zero-visit
child weighing plus infinity; ties break toward the earliest child, and
whenever some child is unvisited the returned child is unvisited. -/
theorem best_child_ucb_spec (n : MCTSNode) (ew : ℝ)
    (hne : n.children ≠ []) (hv : 0 < n.visits) :
    ∃ hi : n.best_child_idx ew < n.children.length,
      n.best_child ew = some (n.children.get ⟨n.best_child_idx ew, hi⟩) ∧
      (∀ (j : ℕ) (hj : j < n.children.length),
        MCTSNode.ucb_weight n.visits ew (n.children.get ⟨j, hj⟩) ≤
          MCTSNode.ucb_weight n.visits ew (n.children.get ⟨n.best_child_idx ew, hi⟩)) ∧
      (∀ (j : ℕ) (hj : j < n.children.length), j < n.best_child_idx ew →
        MCTSNode.ucb_weight n.visits ew (n.children.get ⟨j, hj⟩) <
          MCTSNode.ucb_weight n.visits ew (n.children.get ⟨n.best_child_idx ew, hi⟩)) ∧
      ((∃ c ∈ n.children, c.visits = 0) →
        (n.children.get ⟨n.best_child_idx ew, hi⟩).visits = 0) := by
  have hi := best_child_idx_lt n ew hne
  refine ⟨hi, ?_, fun j hj => weight_le_best n ew j hj hi,
    fun j hj hji => weight_lt_best n ew j hj hi hji, ?_⟩
  · rw [MCTSNode.best_child, List.get?_eq_get hi]
  · rintro ⟨c, hcmem, hc0⟩
    by_contra hvne
    obtain ⟨jc, hjc⟩ := List.mem_iff_get.mp hcmem
    have hwc : MCTSNode.ucb_weight n.visits ew c = ⊤ := by
      rw [MCTSNode.ucb_weight, if_pos hc0]
    have hle := weight_le_best n ew jc.1 jc.2 hi
    rw [show n.children.get ⟨jc.1, jc.2⟩ = c from hjc, hwc] at hle
    have htop : MCTSNode.ucb_weight n.visits ew
        (n.children.get ⟨n.best_child_idx ew, hi⟩) = ⊤ := top_le_iff.mp hle
    rw [MCTSNode.ucb_weight, if_neg hvne] at htop
    exact EReal.coe_ne_top _ htop

theorem best_child_ucb_spec_witness :
    mixNode.children ≠ [] ∧ 0 < mixNode.visits ∧
    (mixNode.best_child 1.41).isSome = true := by
  obtain ⟨hi, heq, _⟩ := best_child_ucb_spec mixNode 1.41 (List.cons_ne_nil _ _) (by decide)
  refine ⟨List.cons_ne_nil _ _, by decide, ?_⟩
  rw [heq]
  rfl

theorem finalRoot_children_length (q : String) (o : Oracle) (seeds : List String)
    (iters sp : ℕ) (pick : ℕ → ℕ) (hit : 1 ≤ iters) :
    ((MCTS.init q o seeds iters sp).finalRoot pick).children.length = MAX_CHILDREN :=
  runRoot_children_length q o seeds iters sp pick iters hit

theorem finalRoot_children_ne_nil (q : String) (o : Oracle) (seeds : List String)
    (iters sp : ℕ) (pick : ℕ → ℕ) (hit : 1 ≤ iters) :
    ((MCTS.init q o seeds iters sp).finalRoot pick).children ≠ [] := by
  have h := finalRoot_children_length q o seeds iters sp pick hit
  intro he
  rw [he] at h
  simp [MAX_CHILDREN] at h

/-- C5: search performs exactly the budgeted number of loop iterations
(the final root is the iteration fold at the budget) and returns the
answer of the root child with the maximal visit count, the earliest
child winning ties; the accumulated value plays no role in the final
selection. -/
theorem search_returns_most_visited_answer (st : MCTS) (pick : ℕ → ℕ)
    (h : (st.finalRoot pick).children ≠ []) :
    st.finalRoot pick = st.runRoot pick st.iterations ∧
    ∃ (i : ℕ) (hi : i < (st.finalRoot pick).children.length),
      st.search pick = Except.ok (((st.finalRoot pick).children.get ⟨i, hi⟩).answer) ∧
      (∀ (j : ℕ) (hj : j < (st.finalRoot pick).children.length),
        ((st.finalRoot pick).children.get ⟨j, hj⟩).visits ≤
          ((st.finalRoot pick).children.get ⟨i, hi⟩).visits) ∧
      (∀ (j : ℕ) (hj : j < (st.finalRoot pick).children.length), j < i →
        ((st.finalRoot pick).children.get ⟨j, hj⟩).visits <
          ((st.finalRoot pick).children.get ⟨i, hi⟩).visits) := by
  refine ⟨rfl, ?_⟩
  obtain ⟨i, hi, heq, hle, hlt⟩ := most_visited_child_spec _ h
  exact ⟨i, hi, by simp only [MCTS.search, heq], hle, hlt⟩

theorem search_returns_most_visited_answer_witness :
    (((MCTS.init "q" stubOracle DEFAULT_SEED_ANSWERS 1 0).finalRoot
        (fun _ => 0)).children ≠ []) ∧
    ∃ a, (MCTS.init "q" stubOracle DEFAULT_SEED_ANSWERS 1 0).search (fun _ => 0)
      = Except.ok a := by
  have hne := finalRoot_children_ne_nil "q" stubOracle DEFAULT_SEED_ANSWERS 1 0
    (fun _ => 0) (le_refl 1)
  obtain ⟨_, i, hi, heq, _, _⟩ := search_returns_most_visited_answer
    (MCTS.init "q" stubOracle DEFAULT_SEED_ANSWERS 1 0) (fun _ => 0) hne
  exact ⟨hne, _, heq⟩

/-- C9: MAX_CHILDREN = 3 is positive, so a fully expanded node has
children; select therefore always stops at a node with room to expand,
every search iteration takes the expand branch, and the simulated node
is one of the children of the expanded node; the branch that simulates
the selected node itself is unreachable. -/
theorem select_always_expandable :
    (∀ n : MCTSNode, n.is_fully_expanded = true → n.children ≠ []) ∧
    (∀ n : MCTSNode, ∃ m, getNode n (select n) = some m ∧
      m.is_fully_expanded = false) ∧
    (∀ (o : Oracle) (qs : String) (k : ℕ) (root : MCTSNode),
      ∃ sel, getNode root (select root) = some sel ∧ sel.is_fully_expanded = false ∧
        searchStep o qs k root = expand_and_simulate o qs k root (select root) sel) :=
  ⟨children_ne_nil_of_fully_expanded, select_valid, searchStep_eq_expand⟩

theorem select_always_expandable_witness :
    fullNode.is_fully_expanded = true ∧ fullNode.children ≠ [] :=
  ⟨by decide, select_always_expandable.1 fullNode (by decide)⟩

/-- C10: with a zero iteration budget the root still has no children
when most_visited_child runs, so search fails like the Python max() on
an empty sequence instead of returning the seed answer; with a positive
budget and a total oracle the first iteration already gives the root
MAX_CHILDREN children and search returns normally. -/
theorem search_zero_vs_positive_iterations :
    (∀ (q : String) (o : Oracle) (seeds : List String) (sp : ℕ) (pick : ℕ → ℕ),
      (MCTS.init q o seeds 0 sp).search pick =
        Except.error "max() arg is an empty sequence") ∧
    (∀ (q : String) (o : Oracle) (seeds : List String) (iters sp : ℕ)
        (pick : ℕ → ℕ), 1 ≤ iters →
      ((MCTS.init q o seeds iters sp).finalRoot pick).children.length = MAX_CHILDREN ∧
      ∃ a, (MCTS.init q o seeds iters sp).search pick = Except.ok a) := by
  constructor
  · intro q o seeds sp pick
    rfl
  · intro q o seeds iters sp pick hit
    refine ⟨finalRoot_children_length q o seeds iters sp pick hit, ?_⟩
    obtain ⟨i, hi, heq, _, _⟩ := most_visited_child_spec _
      (finalRoot_children_ne_nil q o seeds iters sp pick hit)
    refine ⟨(((MCTS.init q o seeds iters sp).finalRoot pick).children.get ⟨i, hi⟩).answer, ?_⟩
    simp only [MCTS.search, heq]

theorem search_zero_vs_positive_iterations_witness :
    (1 ≤ 1) ∧
    (((MCTS.init "q" stubOracle DEFAULT_SEED_ANSWERS 1 0).finalRoot
        (fun _ => 0)).children.length = MAX_CHILDREN ∧
      ∃ a, (MCTS.init "q" stubOracle DEFAULT_SEED_ANSWERS 1 0).search (fun _ => 0)
        = Except.ok a) :=
  ⟨le_refl 1, search_zero_vs_positive_iterations.2 "q" stubOracle
    DEFAULT_SEED_ANSWERS 1 0 (fun _ => 0) (le_refl 1)⟩

/-- C6: expand adds exactly MAX_CHILDREN - len(children) children to a
node that is not fully expanded, after which the node is fully
expanded; expand adds nothing to a fully expanded node; and every node
of the tree satisfies the fan-out bound after every iteration of every
run. -/
theorem max_children_spec :
    (∀ (o : Oracle) (qs : String) (n : MCTSNode), n.is_fully_expanded = false →
      (expand o qs n).children.length = MAX_CHILDREN ∧
      (expand o qs n).children.length - n.children.length
        = MAX_CHILDREN - n.children.length ∧
      (expand o qs n).is_fully_expanded = true) ∧
    (∀ (o : Oracle) (qs : String) (n : MCTSNode), n.is_fully_expanded = true →
      expand o qs n = n) ∧
    (∀ (q : String) (o : Oracle) (seeds : List String) (iters sp : ℕ)
        (pick : ℕ → ℕ) (k : ℕ) (p : List ℕ) (m : MCTSNode),
      getNode ((MCTS.init q o seeds iters sp).runRoot pick k) p = some m →
      m.children.length ≤ MAX_CHILDREN) := by
  refine ⟨?_, ?_, ?_⟩
  · intro o qs n hn
    have hlt : n.children.length < MAX_CHILDREN := by
      simpa [MCTSNode.is_fully_expanded] using hn
    have hlen := (expand_fields o qs n).2.2.2.2
    refine ⟨by rw [hlen]; omega, by rw [hlen]; omega, ?_⟩
    apply fully_expanded_of_length
    rw [hlen]
    omega
  · intro o qs n hn
    have hge : MAX_CHILDREN ≤ n.children.length := by
      simpa [MCTSNode.is_fully_expanded] using hn
    cases n with
    | mk q a cs v w =>
      have h0 : MAX_CHILDREN - cs.length = 0 := by
        simp only [children_mk] at hge
        omega
      simp [expand, h0]
  · intro q o seeds iters sp pick k p m hm
    exact childBound_runRoot q o seeds iters sp pick k p m hm

theorem max_children_spec_witness :
    ((leafNode "a" 0 0).is_fully_expanded = false ∧
      (expand stubOracle "q" (leafNode "a" 0 0)).children.length = MAX_CHILDREN) ∧
    ((MCTS.init "q" stubOracle DEFAULT_SEED_ANSWERS 1 0).root.children.length
      ≤ MAX_CHILDREN) := by
  refine ⟨⟨by decide, (max_children_spec.1 stubOracle "q" (leafNode "a" 0 0)
    (by decide)).1⟩, ?_⟩
  exact max_children_spec.2.2 "q" stubOracle DEFAULT_SEED_ANSWERS 1 0
    (fun _ => 0) 0 [] _ rfl

/-- C7: at every point of a run every node with zero visits has value
zero: nodes are created with zero visits and value 0.0, and
backpropagation changes value only together with a visit increment. -/
theorem zero_visits_zero_value (q : String) (o : Oracle) (seeds : List String)
    (iters sp : ℕ) (pick : ℕ → ℕ) (k : ℕ) (p : List ℕ) (m : MCTSNode)
    (hm : getNode ((MCTS.init q o seeds iters sp).runRoot pick k) p = some m)
    (h0 : m.visits = 0) : m.value = 0 :=
  zeroInv_runRoot q o seeds iters sp pick k p m hm h0

theorem zero_visits_zero_value_witness :
    (getNode ((MCTS.init "q" stubOracle DEFAULT_SEED_ANSWERS 1 0).runRoot
        (fun _ => 0) 0) [] = some (MCTS.init "q" stubOracle DEFAULT_SEED_ANSWERS 1 0).root) ∧
    ((MCTS.init "q" stubOracle DEFAULT_SEED_ANSWERS 1 0).root.visits = 0) ∧
    ((MCTS.init "q" stubOracle DEFAULT_SEED_ANSWERS 1 0).root.value = 0) :=
  ⟨rfl, rfl, zero_visits_zero_value "q" stubOracle DEFAULT_SEED_ANSWERS 1 0
    (fun _ => 0) 0 [] _ rfl rfl⟩
